import Mathlib

/-!  Shallow embedding of the CA64 serial heatmap stream decoder
(src/serial_heatmap.py, class SerialClient) and of the companion I2C
utilities (src/msp430_heatmap.py, src/fr2633_i2c_test.py).

Bytes are modelled as natural numbers and byte strings as lists of
naturals.  The wall clock (Python time.time, sampled once per parsed
frame by the reader loop) is modelled as an explicit stream of rational
timestamps t : Nat -> Rat together with a call counter, and the
last_stats register as an explicit rational state component.  Python
str values produced by line.strip().decode(errors="ignore") are kept
as the underlying (stripped) byte lists; for ASCII content, which is
all the surrounding claims exercise, this decode step is the identity.
-/

namespace CA64

/-- The frame marker SOF = b"CA64" from src/serial_heatmap.py. -/
def SOF : List Nat := [67, 65, 54, 52]

/-- FIX_ELEMS = 64 (matrix cells per frame). -/
def FIX_ELEMS : Nat := 64

/-- FIX_PAY = FIX_ELEMS * 2 = 128 (payload bytes per frame). -/
def FIX_PAY : Nat := FIX_ELEMS * 2

/-- FIX_FRAME = 4 + 2 + 1 + FIX_PAY + 2 = 137 (total frame size). -/
def FIX_FRAME : Nat := 4 + 2 + 1 + FIX_PAY + 2

/-- One shift round of the CRC register: shift left, conditionally XOR
the polynomial 0x1021, mask to 16 bits. -/
def crcRound (crc : Nat) : Nat :=
  if crc &&& 0x8000 ≠ 0 then ((crc <<< 1) ^^^ 0x1021) &&& 0xFFFF
  else (crc <<< 1) &&& 0xFFFF

/-- Absorb one input byte into the CRC register: XOR it into the top
8 bits, then run 8 shift rounds. -/
def crcByte (crc b : Nat) : Nat :=
  (List.range 8).foldl (fun c _ => crcRound c) (crc ^^^ (b <<< 8))

/-- crc16_ccitt from src/serial_heatmap.py: CRC16-CCITT over data with
poly 0x1021 and init 0xFFFF (default argument, as in the source). -/
def crc16_ccitt (data : List Nat) (crc : Nat := 0xFFFF) : Nat :=
  data.foldl crcByte crc

/-- Index of the first occurrence of pat in buf (Python bytes.find,
with None instead of -1 when the pattern does not occur). -/
def findPat (pat : List Nat) : List Nat → Option Nat
  | [] => if pat = [] then some 0 else none
  | x :: l =>
    if pat.isPrefixOf (x :: l) then some 0
    else (findPat pat l).map (· + 1)

/-- The bytes stripped by Python bytes.strip(): ASCII whitespace. -/
def isSpaceByte (b : Nat) : Bool :=
  b = 32 || b = 9 || b = 10 || b = 13 || b = 11 || b = 12

/-- Python bytes.strip(): drop ASCII whitespace from both ends. -/
def stripBytes (l : List Nat) : List Nat :=
  ((l.dropWhile isSpaceByte).reverse.dropWhile isSpaceByte).reverse

/-- Events handed to the two callbacks of SerialClient.  logLine is an
on_log call with a stripped text line; frame is an on_frame call;
statsLine is the on_log call made right after on_frame with the
formatted "CA seq=... len=..." diagnostic string, kept here as its
determining data (sequence number and decoded counts). -/
inductive Event where
  | logLine (s : List Nat) : Event
  | frame (seq : Nat) (ok : Bool) (counts : List Nat) : Event
  | statsLine (seq : Nat) (counts : List Nat) : Event
deriving DecidableEq

/-- Fuel-indexed text-line loop of SerialClient.reader (step 1):
while a newline is present, split off the first line; stop without
consuming if the line contains the marker; if the stripped line starts
with '#' (35) or '>' (62), emit it as a LogLine and continue on the
remainder; otherwise stop without consuming. -/
def processLinesF : Nat → List Nat → List Nat × List Event
  | 0, buf => (buf, [])
  | fuel + 1, buf =>
    match findPat [10] buf with
    | none => (buf, [])
    | some j =>
      let line := buf.take j
      if (findPat SOF line).isSome then (buf, [])
      else
        let s := stripBytes line
        if s.head? = some 35 ∨ s.head? = some 62 then
          let r := processLinesF fuel (buf.drop (j + 1))
          (r.1, .logLine s :: r.2)
        else (buf, [])

/-- The text-line loop, run with enough fuel (each consuming iteration
removes at least one byte, so buf.length + 1 steps always suffice). -/
def processLines (buf : List Nat) : List Nat × List Event :=
  processLinesF (buf.length + 1) buf

/-- Declared payload length at marker position i:
buf[i+4] | (buf[i+5] << 8) (little-endian). -/
def declaredLen (buf : List Nat) (i : Nat) : Nat :=
  buf.getD (i + 4) 0 ||| (buf.getD (i + 5) 0) <<< 8

/-- Sequence byte at marker position i: buf[i+6]. -/
def frameSeq (buf : List Nat) (i : Nat) : Nat :=
  buf.getD (i + 6) 0

/-- Payload slice at marker position i: buf[i+7 : i+7+FIX_PAY]. -/
def framePayload (buf : List Nat) (i : Nat) : List Nat :=
  (buf.drop (i + 7)).take FIX_PAY

/-- Received checksum at marker position i:
buf[i+7+FIX_PAY] | (buf[i+8+FIX_PAY] << 8). -/
def frameCrcRx (buf : List Nat) (i : Nat) : Nat :=
  buf.getD (i + 7 + FIX_PAY) 0 ||| (buf.getD (i + 8 + FIX_PAY) 0) <<< 8

/-- Validity flag computed by the reader: CRC over
[seq, len low byte, len high byte] ++ payload, compared with the
received checksum. -/
def frameOk (buf : List Nat) (i : Nat) : Bool :=
  crc16_ccitt
      ([frameSeq buf i, declaredLen buf i &&& 0xFF, declaredLen buf i >>> 8] ++
        framePayload buf i) ==
    frameCrcRx buf i

/-- Decode a little-endian byte list into 16-bit values
(struct.unpack("<64H", payload), one pair of bytes per value). -/
def unpackLE16 : List Nat → List Nat
  | b0 :: b1 :: rest => (b0 ||| b1 <<< 8) :: unpackLE16 rest
  | _ => []

/-- Outcome of one iteration of the frame-extraction loop (step 2 of
SerialClient.reader): exit the loop with a final buffer (no marker, with
the buffer-guard truncation applied, or an incomplete frame tail
retained from the marker onward); resynchronize after a length mismatch
(del buf[:i+1]); or consume a full parsed frame (del buf[:i+FIX_FRAME]). -/
inductive FrameStep where
  | exit (buf : List Nat) : FrameStep
  | resync (buf : List Nat) : FrameStep
  | parsed (buf : List Nat) (seq : Nat) (ok : Bool) (counts : List Nat) : FrameStep
deriving DecidableEq

/-- One iteration of the frame-extraction loop of SerialClient.reader. -/
def frameStep (buf : List Nat) : FrameStep :=
  match findPat SOF buf with
  | none => .exit (if 4096 < buf.length then buf.drop (buf.length - 1024) else buf)
  | some i =>
    if buf.length - i < FIX_FRAME then .exit (buf.drop i)
    else if declaredLen buf i ≠ FIX_PAY then .resync (buf.drop (i + 1))
    else
      .parsed (buf.drop (i + FIX_FRAME)) (frameSeq buf i) (frameOk buf i)
        (unpackLE16 (framePayload buf i))

/-- Fuel-indexed frame-extraction loop of SerialClient.reader (step 2).
State: current buffer, the last_stats register, the stream t of
wall-clock samples (one time.time() call per parsed frame) and the
index k of the next sample.  A parsed frame is reported through
on_frame and the diagnostic on_log only when more than 0.1 seconds have
passed since last_stats; it is consumed from the buffer either way. -/
def frameLoopF : Nat → List Nat → Rat → (Nat → Rat) → Nat →
    List Nat × Rat × Nat × List Event
  | 0, buf, ls, _, k => (buf, ls, k, [])
  | fuel + 1, buf, ls, t, k =>
    match frameStep buf with
    | .exit b => (b, ls, k, [])
    | .resync b => frameLoopF fuel b ls t k
    | .parsed b seq ok counts =>
      if t k - ls > 1 / 10 then
        ((frameLoopF fuel b (t k) t (k + 1)).1,
          (frameLoopF fuel b (t k) t (k + 1)).2.1,
          (frameLoopF fuel b (t k) t (k + 1)).2.2.1,
          .frame seq ok counts :: .statsLine seq counts ::
            (frameLoopF fuel b (t k) t (k + 1)).2.2.2)
      else frameLoopF fuel b ls t (k + 1)

/-- The frame-extraction loop, run with enough fuel (each non-exiting
iteration removes at least one byte, so buf.length + 1 steps suffice). -/
def frameLoop (buf : List Nat) (ls : Rat) (t : Nat → Rat) (k : Nat) :
    List Nat × Rat × Nat × List Event :=
  frameLoopF (buf.length + 1) buf ls t k

/-- The body of SerialClient.reader for one nonempty chunk of incoming
bytes: append the chunk to the accumulator, run the text-line loop,
then run the frame-extraction loop.  Returns the new accumulator, the
new last_stats register, the new clock-sample index, and the events
emitted in order. -/
def processChunk (buf data : List Nat) (ls : Rat) (t : Nat → Rat) (k : Nat) :
    List Nat × Rat × Nat × List Event :=
  let r1 := processLines (buf ++ data)
  let r2 := frameLoop r1.1 ls t k
  (r2.1, r2.2.1, r2.2.2.1, r1.2 ++ r2.2.2.2)

/-- Iterated reader loop over a list of chunks.  An empty read is
skipped without touching the accumulator (the "if not data: continue"
guard of the reader loop). -/
def feedChunks (buf : List Nat) (chunks : List (List Nat)) (ls : Rat)
    (t : Nat → Rat) (k : Nat) : List Nat × Rat × Nat × List Event :=
  match chunks with
  | [] => (buf, ls, k, [])
  | c :: cs =>
    if c = [] then feedChunks buf cs ls t k
    else
      let r1 := processChunk buf c ls t k
      let r2 := feedChunks r1.1 cs r1.2.1 t r1.2.2.1
      (r2.1, r2.2.1, r2.2.2.1, r1.2.2.2 ++ r2.2.2.2)

/-- Encode a list of 16-bit values as little-endian byte pairs
(struct.pack("<64H", ...) on the producer side). -/
def packLE16 : List Nat → List Nat
  | [] => []
  | x :: xs => x % 256 :: x / 256 % 256 :: packLE16 xs

/-- Modelled from the spec: the checksum the producer computes, the
CRC over [sequence, length low byte, length high byte] ++ payload. -/
def frameCrc (s : Nat) (v : List Nat) : Nat :=
  crc16_ccitt ([s, FIX_PAY % 256, FIX_PAY / 256] ++ packLE16 v)

/-- Modelled from the spec: the producer-side frame encoding of the
Arduino bridge, which is not part of this repository.  Per the wire
format: marker, little-endian declared length 128, sequence byte,
little-endian payload, then the CRC appended low byte first. -/
def encodeFrame (s : Nat) (v : List Nat) : List Nat :=
  SOF ++ [FIX_PAY % 256, FIX_PAY / 256] ++ [s] ++ packLE16 v ++
    [frameCrc s v % 256, frameCrc s v / 256]

/-- Test vector bytes: the ASCII string "123456789". -/
def testVec : List Nat := [49, 50, 51, 52, 53, 54, 55, 56, 57]

end CA64

namespace Msp430

/-- The element-index mapping E = 8*(cycle >> 1) + 2*k + (cycle & 1)
used by read_scan in src/msp430_heatmap.py. -/
def elemIndex (c k : Nat) : Nat := 8 * (c >>> 1) + 2 * k + (c &&& 1)

/-- parse_cycle from src/msp430_heatmap.py.  List indexing buf[i] is
modelled with List.get?, so an out-of-range access yields none (the
Python IndexError); a packet of unexpected length yields no elements. -/
def parse_cycle (buf : List Nat) : Option (List Nat) :=
  if buf.length = 22 then
    (List.range 4).mapM fun k => do
      let lo ← buf.get? (6 + 4 * k + 2)
      let hi ← buf.get? (6 + 4 * k + 3)
      pure (lo ||| hi <<< 8)
  else if buf.length = 10 then do
    let lo ← buf.get? 8
    let hi ← buf.get? 9
    pure [lo ||| hi <<< 8]
  else pure []

/-- read_scan from src/msp430_heatmap.py, with the device abstracted
as the function from cycle number to the response packet.  The write
readings[e] = raw is modelled with a bounds check yielding none on an
out-of-range index (the Python IndexError). -/
def read_scan (packets : Nat → List Nat) : Option (List Nat) :=
  (List.range 16).foldlM
    (fun readings cycle => do
      let elems ← parse_cycle (packets cycle)
      elems.enum.foldlM
        (fun r kv =>
          if elemIndex cycle kv.1 < r.length then pure (r.set (elemIndex cycle kv.1) kv.2)
          else none)
        readings)
    (List.replicate 64 0)

end Msp430

namespace Fr2633

/-- parse_cycle from src/fr2633_i2c_test.py: same as the msp430
variant on packets of length 22 or 10, but a packet of unexpected
length yields the single value -1. -/
def parse_cycle (buf : List Nat) : Option (List Int) :=
  if buf.length = 22 then
    (List.range 4).mapM fun k => do
      let lo ← buf.get? (6 + 4 * k + 2)
      let hi ← buf.get? (6 + 4 * k + 3)
      pure ((lo ||| hi <<< 8 : Nat) : Int)
  else if buf.length = 10 then do
    let lo ← buf.get? 8
    let hi ← buf.get? 9
    pure [((lo ||| hi <<< 8 : Nat) : Int)]
  else pure [-1]

end Fr2633

set_option maxRecDepth 100000

namespace CA64

theorem findPat_some_lt {p : List Nat} (hp : p ≠ []) :
    ∀ {l : List Nat} {j : Nat}, findPat p l = some j → j < l.length := by
  intro l
  induction l with
  | nil => intro j h; simp [findPat, hp] at h
  | cons x xs ih =>
    intro j h
    rw [findPat] at h
    split at h
    · cases h; simp
    · rcases Option.map_eq_some'.mp h with ⟨j', hj', rfl⟩
      have := ih hj'
      simp only [List.length_cons]
      omega

theorem findPat_some_matches :
    ∀ {l p : List Nat} {j : Nat}, findPat p l = some j → p <+: l.drop j := by
  intro l
  induction l with
  | nil =>
    intro p j h
    rw [findPat] at h
    split at h
    · cases h; simp [*]
    · cases h
  | cons x xs ih =>
    intro p j h
    rw [findPat] at h
    split at h
    · cases h
      exact List.isPrefixOf_iff_prefix.mp (by assumption)
    · rcases Option.map_eq_some'.mp h with ⟨j', hj', rfl⟩
      simpa using ih hj'

theorem findPat_eq_none_iff {p : List Nat} (hp : p ≠ []) :
    ∀ {l : List Nat}, findPat p l = none ↔ ¬ p <:+: l := by
  intro l
  induction l with
  | nil => simp [findPat, hp]
  | cons x xs ih =>
    rw [findPat]
    constructor
    · intro h hinf
      split at h
      · cases h
      · rcases List.infix_cons_iff.mp hinf with h2 | h2
        · exact (by assumption : ¬ p.isPrefixOf (x :: xs) = true)
            (List.isPrefixOf_iff_prefix.mpr h2)
        · exact ih.mp (Option.map_eq_none'.mp h) h2
    · intro h
      rw [if_neg, Option.map_eq_none']
      · exact ih.mpr fun h2 => h (List.infix_cons_iff.mpr (Or.inr h2))
      · intro hpre
        exact h (List.infix_cons_iff.mpr
          (Or.inl (List.isPrefixOf_iff_prefix.mp hpre)))

theorem findPat_of_prefix {p l : List Nat} (hp : p ≠ []) (h : p <+: l) :
    findPat p l = some 0 := by
  cases l with
  | nil => exact absurd (List.prefix_nil.mp h) hp
  | cons x xs => rw [findPat, if_pos (List.isPrefixOf_iff_prefix.mpr h)]

theorem findPat_replicate_none {a b : Nat} (p : List Nat) (hab : a ≠ b) :
    ∀ n, findPat (a :: p) (List.replicate n b) = none := by
  intro n
  induction n with
  | zero => simp [findPat]
  | succ n ih =>
    rw [List.replicate_succ, findPat, if_neg, ih]
    · rfl
    · simp [List.isPrefixOf, hab]

/-- Reassembling a value from its low byte and the remaining bits. -/
theorem lo_or_hi (x : Nat) : x % 256 ||| (x / 256) <<< 8 = x := by
  apply Nat.eq_of_testBit_eq
  intro i
  have hd : x / 256 = x >>> 8 := by rw [Nat.shiftRight_eq_div_pow]
  have hm : x % 256 = x % 2 ^ 8 := by norm_num
  rw [hm, hd]
  simp only [Nat.testBit_or, Nat.testBit_mod_two_pow, Nat.testBit_shiftLeft,
    Nat.testBit_shiftRight]
  by_cases h : i < 8
  · simp [h, (by omega : ¬ 8 ≤ i)]
  · simp [h, (by omega : 8 ≤ i), (by omega : 8 + (i - 8) = i)]

theorem packLE16_length (v : List Nat) : (packLE16 v).length = 2 * v.length := by
  induction v with
  | nil => rfl
  | cons x xs ih => simp [packLE16, ih]; omega

theorem unpack_pack {v : List Nat} (h : ∀ x ∈ v, x < 65536) :
    unpackLE16 (packLE16 v) = v := by
  induction v with
  | nil => rfl
  | cons x xs ih =>
    have hx : x < 65536 := h x (by simp)
    have hdiv : x / 256 < 256 := by omega
    rw [packLE16, unpackLE16, Nat.mod_eq_of_lt hdiv, lo_or_hi,
      ih fun y hy => h y (by simp [hy])]

theorem processLinesF_congr :
    ∀ {fuel : Nat} {fuel' : Nat} {buf : List Nat}, buf.length < fuel →
      buf.length < fuel' → processLinesF fuel buf = processLinesF fuel' buf := by
  intro fuel
  induction fuel with
  | zero => intro fuel' buf h h'; omega
  | succ fuel ih =>
    intro fuel' buf h h'
    match fuel', h' with
    | f' + 1, h' =>
      cases hfp : findPat [10] buf with
      | none => simp only [processLinesF, hfp]
      | some j =>
        have hj : j < buf.length := findPat_some_lt (by simp) hfp
        have hl : (buf.drop (j + 1)).length < fuel := by
          simp only [List.length_drop]; omega
        have hl' : (buf.drop (j + 1)).length < f' := by
          simp only [List.length_drop]; omega
        simp only [processLinesF, hfp]
        rw [ih hl hl']

theorem processLines_none {buf : List Nat} (h : findPat [10] buf = none) :
    processLines buf = (buf, []) := by
  rw [processLines, processLinesF, h]

theorem processLines_sof_stop {buf : List Nat} {j : Nat}
    (hj : findPat [10] buf = some j)
    (hsof : (findPat SOF (buf.take j)).isSome) :
    processLines buf = (buf, []) := by
  rw [processLines, processLinesF, hj]
  simp [hsof]

theorem processLines_plain_stop {buf : List Nat} {j : Nat}
    (hj : findPat [10] buf = some j)
    (hsof : ¬ (findPat SOF (buf.take j)).isSome = true)
    (hh : ¬ ((stripBytes (buf.take j)).head? = some 35 ∨
      (stripBytes (buf.take j)).head? = some 62)) :
    processLines buf = (buf, []) := by
  rw [processLines, processLinesF, hj]
  simp only [Bool.not_eq_true] at hsof
  simp [hsof, hh]

theorem processLines_emit {buf : List Nat} {j : Nat}
    (hj : findPat [10] buf = some j)
    (hsof : ¬ (findPat SOF (buf.take j)).isSome = true)
    (hh : (stripBytes (buf.take j)).head? = some 35 ∨
      (stripBytes (buf.take j)).head? = some 62) :
    processLines buf =
      ((processLines (buf.drop (j + 1))).1,
        .logLine (stripBytes (buf.take j)) :: (processLines (buf.drop (j + 1))).2) := by
  have hjlt : j < buf.length := findPat_some_lt (by simp) hj
  rw [processLines, processLinesF, hj]
  simp only [Bool.not_eq_true] at hsof
  have hcongr : processLinesF buf.length (buf.drop (j + 1)) =
      processLines (buf.drop (j + 1)) := by
    apply processLinesF_congr <;> simp only [List.length_drop] <;> omega
  simp [hsof, hh, hcongr]

theorem processLines_suffix (buf : List Nat) : (processLines buf).1 <:+ buf := by
  suffices h : ∀ fuel buf, (processLinesF fuel buf).1 <:+ buf from h _ buf
  intro fuel
  induction fuel with
  | zero => intro buf; exact List.suffix_refl buf
  | succ fuel ih =>
    intro buf
    simp only [processLinesF]
    cases hfp : findPat [10] buf with
    | none => exact List.suffix_refl buf
    | some j =>
      by_cases hsof : (findPat SOF (buf.take j)).isSome
      · simp [hsof]
      · by_cases hh : (stripBytes (buf.take j)).head? = some 35 ∨
          (stripBytes (buf.take j)).head? = some 62
        · simp only [hsof, hh, if_true, if_false, Bool.false_eq_true]
          exact (ih (buf.drop (j + 1))).trans (List.drop_suffix _ _)
        · simp [hsof, hh]

theorem frameStep_no_sof {buf : List Nat} (h : findPat SOF buf = none) :
    frameStep buf =
      .exit (if 4096 < buf.length then buf.drop (buf.length - 1024) else buf) := by
  simp only [frameStep, h]

theorem frameStep_incomplete {buf : List Nat} {i : Nat}
    (hfp : findPat SOF buf = some i) (h1 : buf.length - i < FIX_FRAME) :
    frameStep buf = .exit (buf.drop i) := by
  simp only [frameStep, hfp]
  rw [if_pos h1]

theorem frameStep_resync_eq {buf : List Nat} {i : Nat}
    (hfp : findPat SOF buf = some i) (h1 : ¬ buf.length - i < FIX_FRAME)
    (h2 : declaredLen buf i ≠ FIX_PAY) :
    frameStep buf = .resync (buf.drop (i + 1)) := by
  simp only [frameStep, hfp]
  rw [if_neg h1, if_pos h2]

theorem frameStep_parsed_eq {buf : List Nat} {i : Nat}
    (hfp : findPat SOF buf = some i) (h1 : ¬ buf.length - i < FIX_FRAME)
    (h2 : declaredLen buf i = FIX_PAY) :
    frameStep buf =
      .parsed (buf.drop (i + FIX_FRAME)) (frameSeq buf i) (frameOk buf i)
        (unpackLE16 (framePayload buf i)) := by
  simp only [frameStep, hfp]
  rw [if_neg h1, if_neg (by simp [h2])]

theorem frameStep_resync_length {buf b : List Nat} (h : frameStep buf = .resync b) :
    b.length < buf.length := by
  cases hfp : findPat SOF buf with
  | none => simp only [frameStep, hfp] at h; exact FrameStep.noConfusion h
  | some i =>
    have hi : i < buf.length := findPat_some_lt (by simp [SOF]) hfp
    simp only [frameStep, hfp] at h
    by_cases h1 : buf.length - i < FIX_FRAME
    · rw [if_pos h1] at h; cases h
    · rw [if_neg h1] at h
      by_cases h2 : declaredLen buf i ≠ FIX_PAY
      · rw [if_pos h2] at h
        rw [FrameStep.resync.injEq] at h
        subst h
        simp only [List.length_drop]
        omega
      · rw [if_neg h2] at h; cases h

theorem frameStep_parsed_length {buf b : List Nat} {seq : Nat} {ok : Bool}
    {counts : List Nat} (h : frameStep buf = .parsed b seq ok counts) :
    b.length + FIX_FRAME ≤ buf.length := by
  cases hfp : findPat SOF buf with
  | none => simp only [frameStep, hfp] at h; exact FrameStep.noConfusion h
  | some i =>
    have hi : i < buf.length := findPat_some_lt (by simp [SOF]) hfp
    simp only [frameStep, hfp] at h
    by_cases h1 : buf.length - i < FIX_FRAME
    · rw [if_pos h1] at h; cases h
    · rw [if_neg h1] at h
      by_cases h2 : declaredLen buf i ≠ FIX_PAY
      · rw [if_pos h2] at h; cases h
      · rw [if_neg h2] at h
        rw [FrameStep.parsed.injEq] at h
        obtain ⟨hb, -, -, -⟩ := h
        subst hb
        simp only [List.length_drop]
        omega

theorem frameLoopF_congr :
    ∀ {fuel : Nat} {fuel' : Nat} {buf : List Nat} {ls : Rat} {t : Nat → Rat} {k : Nat},
      buf.length < fuel → buf.length < fuel' →
      frameLoopF fuel buf ls t k = frameLoopF fuel' buf ls t k := by
  intro fuel
  induction fuel with
  | zero => intro fuel' buf ls t k h h'; omega
  | succ fuel ih =>
    intro fuel' buf ls t k h h'
    match fuel', h' with
    | f' + 1, h' =>
      cases hstep : frameStep buf with
      | exit b => simp only [frameLoopF, hstep]
      | resync b =>
        have hb := frameStep_resync_length hstep
        simp only [frameLoopF, hstep]
        exact ih (by omega) (by omega)
      | parsed b seq ok counts =>
        have hb := frameStep_parsed_length hstep
        have hF : FIX_FRAME = 137 := rfl
        simp only [frameLoopF, hstep]
        by_cases hg : t k - ls > 1 / 10
        · rw [if_pos hg, if_pos hg, @ih f' b (t k) t (k + 1) (by omega) (by omega)]
        · rw [if_neg hg, if_neg hg]
          exact ih (by omega) (by omega)

theorem frameLoop_exit {buf b : List Nat} {ls : Rat} {t : Nat → Rat} {k : Nat}
    (h : frameStep buf = .exit b) : frameLoop buf ls t k = (b, ls, k, []) := by
  show frameLoopF (buf.length + 1) buf ls t k = _
  rw [frameLoopF]
  simp only [h]

theorem frameLoop_resync {buf b : List Nat} {ls : Rat} {t : Nat → Rat} {k : Nat}
    (h : frameStep buf = .resync b) : frameLoop buf ls t k = frameLoop b ls t k := by
  have hb := frameStep_resync_length h
  show frameLoopF (buf.length + 1) buf ls t k = _
  rw [frameLoopF]
  simp only [h]
  exact frameLoopF_congr (by omega) (by omega)

theorem frameLoop_parsed_emit {buf b : List Nat} {seq : Nat} {ok : Bool}
    {counts : List Nat} {ls : Rat} {t : Nat → Rat} {k : Nat}
    (h : frameStep buf = .parsed b seq ok counts) (hg : t k - ls > 1 / 10) :
    frameLoop buf ls t k =
      ((frameLoop b (t k) t (k + 1)).1, (frameLoop b (t k) t (k + 1)).2.1,
        (frameLoop b (t k) t (k + 1)).2.2.1,
        .frame seq ok counts :: .statsLine seq counts ::
          (frameLoop b (t k) t (k + 1)).2.2.2) := by
  have hb := frameStep_parsed_length h
  have hF : FIX_FRAME = 137 := rfl
  show frameLoopF (buf.length + 1) buf ls t k = _
  rw [frameLoopF]
  simp only [h]
  rw [if_pos hg]
  rw [show frameLoopF buf.length b (t k) t (k + 1) = frameLoop b (t k) t (k + 1) from
    frameLoopF_congr (by omega) (by omega)]

theorem frameLoop_parsed_skip {buf b : List Nat} {seq : Nat} {ok : Bool}
    {counts : List Nat} {ls : Rat} {t : Nat → Rat} {k : Nat}
    (h : frameStep buf = .parsed b seq ok counts) (hg : ¬ t k - ls > 1 / 10) :
    frameLoop buf ls t k = frameLoop b ls t (k + 1) := by
  have hb := frameStep_parsed_length h
  have hF : FIX_FRAME = 137 := rfl
  show frameLoopF (buf.length + 1) buf ls t k = _
  rw [frameLoopF]
  simp only [h]
  rw [if_neg hg]
  exact frameLoopF_congr (by omega) (by omega)

/-- If the marker is a prefix of the buffer, the text-line loop stops
immediately without consuming anything: the first newline, if any, lies
at or after index 4, so the candidate line contains the marker. -/
theorem processLines_sof {buf : List Nat} (h : SOF <+: buf) :
    processLines buf = (buf, []) := by
  cases hfp : findPat [10] buf with
  | none => exact processLines_none hfp
  | some j =>
    obtain ⟨tl, rfl⟩ := h
    have hm : [10] <+: (SOF ++ tl).drop j := findPat_some_matches hfp
    match j, hm with
    | 0, hm => simp [SOF, List.cons_prefix_cons] at hm
    | 1, hm => simp [SOF, List.cons_prefix_cons] at hm
    | 2, hm => simp [SOF, List.cons_prefix_cons] at hm
    | 3, hm => simp [SOF, List.cons_prefix_cons] at hm
    | n + 4, hm =>
      apply processLines_sof_stop hfp
      have htake : (SOF ++ tl).take (n + 4) = SOF ++ tl.take n := by
        have h4 : n + 4 = SOF.length + n := by simp [SOF]; omega
        rw [h4]
        exact List.take_append n
      rw [htake]
      cases hnone : findPat SOF (SOF ++ tl.take n) with
      | some i => rfl
      | none =>
        exact absurd ((List.prefix_append SOF (tl.take n)).isInfix)
          ((findPat_eq_none_iff (by simp [SOF])).mp hnone)

theorem getD_eq_headD_drop (l : List Nat) (n : Nat) : l.getD n 0 = (l.drop n).headD 0 := by
  induction l generalizing n with
  | nil => simp [List.getD]
  | cons a l ih =>
    cases n with
    | zero => rfl
    | succ n => simp only [List.getD_cons_succ, List.drop_succ_cons]; exact ih n

theorem encodeFrame_cons (s : Nat) (v : List Nat) (rest : List Nat) :
    encodeFrame s v ++ rest =
      67 :: 65 :: 54 :: 52 :: 128 :: 0 :: s ::
        (packLE16 v ++ (frameCrc s v % 256 :: frameCrc s v / 256 :: rest)) := by
  simp [encodeFrame, SOF, FIX_PAY, FIX_ELEMS]

theorem encodeFrame_length {v : List Nat} (s : Nat) (hv : v.length = 64) :
    (encodeFrame s v).length = 137 := by
  simp [encodeFrame, SOF, packLE16_length, hv]

theorem frameStep_encode (s : Nat) {v : List Nat} (rest : List Nat)
    (hv : v.length = 64) (hvb : ∀ x ∈ v, x < 65536) :
    frameStep (encodeFrame s v ++ rest) = .parsed rest s true v := by
  have hpack : (packLE16 v).length = 128 := by rw [packLE16_length, hv]
  have hc := encodeFrame_cons s v rest
  have hlen : (encodeFrame s v).length = 137 := encodeFrame_length s hv
  have hsof : SOF <+: encodeFrame s v ++ rest := by
    rw [hc]
    exact ⟨_, rfl⟩
  have hfp : findPat SOF (encodeFrame s v ++ rest) = some 0 :=
    findPat_of_prefix (by simp [SOF]) hsof
  have hlen2 : (encodeFrame s v ++ rest).length = 137 + rest.length := by
    simp [hlen]
  have h1 : ¬ (encodeFrame s v ++ rest).length - 0 < FIX_FRAME := by
    rw [hlen2]
    have hF : FIX_FRAME = 137 := rfl
    omega
  have hdecl : declaredLen (encodeFrame s v ++ rest) 0 = FIX_PAY := by
    rw [hc]
    show (128 : Nat) ||| 0 <<< 8 = FIX_PAY
    decide
  have hseq : frameSeq (encodeFrame s v ++ rest) 0 = s := by
    rw [hc]; rfl
  have hpayX : framePayload (encodeFrame s v ++ rest) 0 = packLE16 v := by
    rw [framePayload, hc]
    show (packLE16 v ++ (frameCrc s v % 256 :: frameCrc s v / 256 :: rest)).take FIX_PAY =
      packLE16 v
    exact List.take_left' (by rw [hpack]; decide)
  have hd : (67 :: 65 :: 54 :: 52 :: 128 :: 0 :: s ::
      (packLE16 v ++ (frameCrc s v % 256 :: frameCrc s v / 256 :: rest))).drop
        (0 + 7 + FIX_PAY) = frameCrc s v % 256 :: frameCrc s v / 256 :: rest := by
    show (packLE16 v ++ (frameCrc s v % 256 :: frameCrc s v / 256 :: rest)).drop 128 =
      frameCrc s v % 256 :: frameCrc s v / 256 :: rest
    exact List.drop_left' hpack
  have hd2 : (67 :: 65 :: 54 :: 52 :: 128 :: 0 :: s ::
      (packLE16 v ++ (frameCrc s v % 256 :: frameCrc s v / 256 :: rest))).drop
        (0 + 8 + FIX_PAY) = frameCrc s v / 256 :: rest := by
    have he : (0 : Nat) + 8 + FIX_PAY = (0 + 7 + FIX_PAY) + 1 := by decide
    rw [he, ← List.drop_drop, hd]
    rfl
  have hrx : frameCrcRx (encodeFrame s v ++ rest) 0 = frameCrc s v := by
    rw [frameCrcRx, getD_eq_headD_drop, getD_eq_headD_drop, hc, hd, hd2]
    simp only [List.headD_cons]
    exact lo_or_hi _
  have hok : frameOk (encodeFrame s v ++ rest) 0 = true := by
    rw [frameOk, hseq, hdecl, hpayX, hrx]
    have e1 : FIX_PAY &&& 0xFF = FIX_PAY % 256 := by decide
    have e2 : FIX_PAY >>> 8 = FIX_PAY / 256 := by decide
    rw [e1, e2, frameCrc]
    simp
  have hdrop : (encodeFrame s v ++ rest).drop (0 + FIX_FRAME) = rest := by
    rw [hc]
    show (packLE16 v ++ (frameCrc s v % 256 :: frameCrc s v / 256 :: rest)).drop 130 = rest
    have h130 : (130 : Nat) = 128 + 2 := by decide
    rw [h130, ← List.drop_drop, List.drop_left' hpack]
    rfl
  rw [frameStep_parsed_eq hfp h1 hdecl, hdrop, hseq, hok, hpayX, unpack_pack hvb]

theorem processChunk_eq (buf data : List Nat) (ls : Rat) (t : Nat → Rat) (k : Nat) :
    processChunk buf data ls t k =
      ((frameLoop (processLines (buf ++ data)).1 ls t k).1,
        (frameLoop (processLines (buf ++ data)).1 ls t k).2.1,
        (frameLoop (processLines (buf ++ data)).1 ls t k).2.2.1,
        (processLines (buf ++ data)).2 ++
          (frameLoop (processLines (buf ++ data)).1 ls t k).2.2.2) := rfl

theorem frameLoop_nil (ls : Rat) (t : Nat → Rat) (k : Nat) :
    frameLoop [] ls t k = ([], ls, k, []) :=
  frameLoop_exit (by decide)

theorem processLines_encode (s : Nat) (v rest : List Nat) :
    processLines (encodeFrame s v ++ rest) = (encodeFrame s v ++ rest, []) := by
  apply processLines_sof
  simp only [encodeFrame, List.append_assoc]
  exact List.prefix_append _ _

/-- Feeding one encoded frame to an empty accumulator when the
rate-limit window is open: the frame is consumed and reported. -/
theorem processChunk_encode_emit (s : Nat) {v : List Nat} (ls : Rat) (t : Nat → Rat)
    (k : Nat) (hv : v.length = 64) (hvb : ∀ x ∈ v, x < 65536)
    (ht : t k - ls > 1 / 10) :
    processChunk [] (encodeFrame s v) ls t k =
      ([], t k, k + 1, [.frame s true v, .statsLine s v]) := by
  have hstep : frameStep (encodeFrame s v) = .parsed [] s true v := by
    have h := frameStep_encode s [] hv hvb
    rwa [List.append_nil] at h
  have hlines : processLines (encodeFrame s v) = (encodeFrame s v, []) := by
    have h := processLines_encode s v []
    rwa [List.append_nil] at h
  rw [processChunk_eq, List.nil_append, hlines]
  simp only [frameLoop_parsed_emit hstep ht, frameLoop_nil]
  rfl

/-- Feeding one encoded frame to an empty accumulator when the
rate-limit window is closed: the frame is consumed silently. -/
theorem processChunk_encode_skip (s : Nat) {v : List Nat} (ls : Rat) (t : Nat → Rat)
    (k : Nat) (hv : v.length = 64) (hvb : ∀ x ∈ v, x < 65536)
    (ht : ¬ t k - ls > 1 / 10) :
    processChunk [] (encodeFrame s v) ls t k = ([], ls, k + 1, []) := by
  have hstep : frameStep (encodeFrame s v) = .parsed [] s true v := by
    have h := frameStep_encode s [] hv hvb
    rwa [List.append_nil] at h
  have hlines : processLines (encodeFrame s v) = (encodeFrame s v, []) := by
    have h := processLines_encode s v []
    rwa [List.append_nil] at h
  rw [processChunk_eq, List.nil_append, hlines]
  simp only [frameLoop_parsed_skip hstep ht, frameLoop_nil]
  rfl

/-- The buffer component of the frame loop does not depend on the
rate-limiter state or the wall-clock samples. -/
theorem frameLoopF_fst :
    ∀ (fuel : Nat) (buf : List Nat) (ls ls' : Rat) (t t' : Nat → Rat) (k k' : Nat),
      (frameLoopF fuel buf ls t k).1 = (frameLoopF fuel buf ls' t' k').1 := by
  intro fuel
  induction fuel with
  | zero => intros; rfl
  | succ fuel ih =>
    intro buf ls ls' t t' k k'
    cases hstep : frameStep buf with
    | exit b => simp only [frameLoopF, hstep]
    | resync b =>
      simp only [frameLoopF, hstep]
      exact ih b ls ls' t t' k k'
    | parsed b seq ok counts =>
      simp only [frameLoopF, hstep]
      by_cases hg : t k - ls > 1 / 10 <;> by_cases hg' : t' k' - ls' > 1 / 10
      · rw [if_pos hg, if_pos hg']; exact ih b (t k) (t' k') t t' (k + 1) (k' + 1)
      · rw [if_pos hg, if_neg hg']; exact ih b (t k) ls' t t' (k + 1) (k' + 1)
      · rw [if_neg hg, if_pos hg']; exact ih b ls (t' k') t t' (k + 1) (k' + 1)
      · rw [if_neg hg, if_neg hg']; exact ih b ls ls' t t' (k + 1) (k' + 1)

theorem suffix_append_right {l₁ l₂ : List Nat} (h : l₁ <:+ l₂) (l₃ : List Nat) :
    l₁ ++ l₃ <:+ l₂ ++ l₃ := by
  obtain ⟨pre, rfl⟩ := h
  exact ⟨pre, (List.append_assoc _ _ _).symm⟩

/-- Whenever no marker is present, one frame-loop pass only applies the
buffer guard and exits. -/
theorem frameLoop_no_sof {buf : List Nat} {ls : Rat} {t : Nat → Rat} {k : Nat}
    (h : findPat SOF buf = none) :
    frameLoop buf ls t k =
      (if 4096 < buf.length then buf.drop (buf.length - 1024) else buf, ls, k, []) :=
  frameLoop_exit (frameStep_no_sof h)

theorem guard_length (buf : List Nat) :
    (if 4096 < buf.length then buf.drop (buf.length - 1024) else buf).length ≤ 4096 := by
  by_cases h : 4096 < buf.length
  · rw [if_pos h]
    simp only [List.length_drop]
    omega
  · rw [if_neg h]
    omega

theorem guard_suffix (buf : List Nat) :
    (if 4096 < buf.length then buf.drop (buf.length - 1024) else buf) <:+ buf := by
  by_cases h : 4096 < buf.length
  · rw [if_pos h]; exact List.drop_suffix _ _
  · rw [if_neg h]

theorem findPat_none_of_infix {buf content : List Nat} (hno : ¬ SOF <:+: content)
    (hinf : buf <:+: content) : findPat SOF buf = none :=
  (findPat_eq_none_iff (by simp [SOF])).mpr fun h => hno (h.trans hinf)

/-- Buffer Guard bound: starting from an accumulator of at most 4096
bytes, feeding any chunks whose total content never contains the
marker leaves the accumulator at or below 4096 bytes. -/
theorem feed_bound :
    ∀ (chunks : List (List Nat)) (buf : List Nat) (ls : Rat) (t : Nat → Rat) (k : Nat)
      (content : List Nat), ¬ SOF <:+: content → (buf ++ chunks.flatten) <:+ content →
      buf.length ≤ 4096 → (feedChunks buf chunks ls t k).1.length ≤ 4096 := by
  intro chunks
  induction chunks with
  | nil =>
    intro buf ls t k content hno hsfx hb
    simpa [feedChunks] using hb
  | cons c cs ih =>
    intro buf ls t k content hno hsfx hb
    have hsfx2 : (buf ++ c) ++ cs.flatten <:+ content := by
      have : buf ++ (c :: cs).flatten = (buf ++ c) ++ cs.flatten := by
        simp [List.flatten, List.append_assoc]
      rwa [this] at hsfx
    by_cases hc : c = []
    · rw [feedChunks, if_pos hc]
      apply ih buf ls t k content hno _ hb
      subst hc
      simpa using hsfx2
    · rw [feedChunks, if_neg hc]
      have hY : (processLines (buf ++ c)).1 <:+ buf ++ c := processLines_suffix _
      have hbc_inf : buf ++ c <:+: content := by
        obtain ⟨pre, hpre⟩ := hsfx2
        exact ⟨pre, cs.flatten, by rw [← hpre, List.append_assoc]⟩
      have hYno : findPat SOF (processLines (buf ++ c)).1 = none :=
        findPat_none_of_infix hno (hY.isInfix.trans hbc_inf)
      have hfl := @frameLoop_no_sof (processLines (buf ++ c)).1 ls t k hYno
      have hb1 : (processChunk buf c ls t k).1.length ≤ 4096 := by
        rw [processChunk_eq, hfl]
        exact guard_length _
      have hb1sfx : (processChunk buf c ls t k).1 <:+ buf ++ c := by
        rw [processChunk_eq, hfl]
        exact (guard_suffix _).trans hY
      have hsfx3 : (processChunk buf c ls t k).1 ++ cs.flatten <:+ content :=
        (suffix_append_right hb1sfx cs.flatten).trans hsfx2
      exact ih (processChunk buf c ls t k).1 (processChunk buf c ls t k).2.1 t
        (processChunk buf c ls t k).2.2.1 content hno hsfx3 hb1

theorem drop_replicate (a : Nat) :
    ∀ (m n : Nat), (List.replicate n a).drop m = List.replicate (n - m) a := by
  intro m
  induction m with
  | zero => simp
  | succ m ih =>
    intro n
    cases n with
    | zero => simp
    | succ n =>
      rw [List.replicate_succ, List.drop_succ_cons, ih]
      have h : n + 1 - (m + 1) = n - m := by omega
      rw [h]

theorem findPat_sof_replicate (n : Nat) :
    findPat SOF (List.replicate n 85) = none := by
  rw [show SOF = 67 :: [65, 54, 52] from rfl]
  exact findPat_replicate_none _ (by decide) n

theorem findPat_nl_replicate (n : Nat) :
    findPat [10] (List.replicate n 85) = none := by
  rw [show ([10] : List Nat) = 10 :: [] from rfl]
  exact findPat_replicate_none _ (by decide) n

/-- Processing one all-noise chunk of 85-bytes from an accumulator that
is itself all 85s: the line loop does nothing and the frame loop only
applies the buffer guard. -/
theorem processChunk_replicate (m n : Nat) (ls : Rat) (t : Nat → Rat) (k : Nat) :
    processChunk (List.replicate m 85) (List.replicate n 85) ls t k =
      (if 4096 < m + n then List.replicate 1024 85 else List.replicate (m + n) 85,
        ls, k, []) := by
  rw [processChunk_eq, List.append_replicate_replicate,
    processLines_none (findPat_nl_replicate (m + n)),
    frameLoop_no_sof (findPat_sof_replicate (m + n))]
  by_cases h : 4096 < m + n
  · rw [if_pos (by simpa using h), if_pos h, drop_replicate]
    have he : m + n - (m + n - 1024) = 1024 := by omega
    rw [List.length_replicate, he]
    rfl
  · rw [if_neg (by simpa using h), if_neg h]
    rfl

/-- Bytes of the status line "#OK CONNECT" followed by a newline. -/
def connectLine : List Nat := [35, 79, 75, 32, 67, 79, 78, 78, 69, 67, 84, 10]

/-- Bytes of the status line "#OK DISCONNECT" followed by a newline. -/
def disconnectLine : List Nat :=
  [35, 79, 75, 32, 68, 73, 83, 67, 79, 78, 78, 69, 67, 84, 10]

/-- Bytes of "#OK CONNECT" (the stripped first line). -/
def connectStripped : List Nat := [35, 79, 75, 32, 67, 79, 78, 78, 69, 67, 84]

theorem findPat_nl_connect (R : List Nat) :
    findPat [10] (connectLine ++ R) = some 11 := by
  simp [connectLine, findPat, List.isPrefixOf]

theorem connect_take (R : List Nat) : (connectLine ++ R).take 11 = connectStripped := by
  rfl

theorem connect_drop (R : List Nat) : (connectLine ++ R).drop 12 = R := by
  rfl

/-- Feeding "#OK CONNECT\n", one encoded frame, and "#OK DISCONNECT\n"
as a single chunk, with the rate-limit window open: the connect line
and the frame are reported, the frame diagnostic line follows, and the
disconnect line stays in the accumulator (the frame loop runs last and
returns before the line loop can see it again). -/
theorem interleave_run (s : Nat) {v : List Nat} (ls : Rat) (t : Nat → Rat) (k : Nat)
    (hv : v.length = 64) (hvb : ∀ x ∈ v, x < 65536) (ht : t k - ls > 1 / 10) :
    processChunk [] (connectLine ++ (encodeFrame s v ++ disconnectLine)) ls t k =
      (disconnectLine, t k, k + 1,
        [.logLine connectStripped, .frame s true v, .statsLine s v]) := by
  have hlines : processLines (connectLine ++ (encodeFrame s v ++ disconnectLine)) =
      (encodeFrame s v ++ disconnectLine, [Event.logLine connectStripped]) := by
    have hemit := processLines_emit (findPat_nl_connect (encodeFrame s v ++ disconnectLine))
      (by rw [connect_take]; decide) (Or.inl (by rw [connect_take]; decide))
    rw [hemit, connect_take, connect_drop, processLines_encode,
      show stripBytes connectStripped = connectStripped from by decide]
  have hstep : frameStep (encodeFrame s v ++ disconnectLine) =
      .parsed disconnectLine s true v := frameStep_encode s disconnectLine hv hvb
  have hdis : frameLoop disconnectLine (t k) t (k + 1) =
      (disconnectLine, t k, k + 1, []) :=
    frameLoop_exit (by decide)
  rw [processChunk_eq, List.nil_append, hlines]
  simp only [frameLoop_parsed_emit hstep ht, hdis]
  rfl

theorem encode_findPat (s : Nat) (v : List Nat) :
    findPat SOF (encodeFrame s v) = some 0 :=
  findPat_of_prefix (by simp [SOF])
    (by simp only [encodeFrame, List.append_assoc]; exact List.prefix_append _ _)

theorem encode_declaredLen (s : Nat) (v : List Nat) :
    declaredLen (encodeFrame s v) 0 = FIX_PAY := by
  have hc := encodeFrame_cons s v []
  rw [List.append_nil] at hc
  rw [hc]
  show (128 : Nat) ||| 0 <<< 8 = FIX_PAY
  decide

/-- The four components the frame extractor reads out of one encoded
frame sitting alone in the accumulator. -/
theorem encode_components (s : Nat) {v : List Nat} (hv : v.length = 64)
    (hvb : ∀ x ∈ v, x < 65536) :
    (encodeFrame s v).drop (0 + FIX_FRAME) = [] ∧ frameSeq (encodeFrame s v) 0 = s ∧
    frameOk (encodeFrame s v) 0 = true ∧
    unpackLE16 (framePayload (encodeFrame s v) 0) = v := by
  have h1 : frameStep (encodeFrame s v) = .parsed [] s true v := by
    have h := frameStep_encode s [] hv hvb
    rwa [List.append_nil] at h
  have h2 := frameStep_parsed_eq (encode_findPat s v)
    (by rw [encodeFrame_length s hv]; decide) (encode_declaredLen s v)
  rw [h1, FrameStep.parsed.injEq] at h2
  obtain ⟨ha, hb, hc, hd⟩ := h2
  exact ⟨ha.symm, hb.symm, hc.symm, hd.symm⟩

end CA64

namespace Msp430

theorem elemIndex_lt : ∀ c < 16, ∀ k < 4, elemIndex c k < 64 := by decide

theorem elemIndex_inj : ∀ c < 16, ∀ k < 4, ∀ c2 < 16, ∀ k2 < 4,
    elemIndex c k = elemIndex c2 k2 → c = c2 ∧ k = k2 := by
  have key : ∀ a < 64, ∀ b < 64,
      elemIndex (a / 4) (a % 4) = elemIndex (b / 4) (b % 4) → a = b := by decide
  intro c hc k hk c2 hc2 k2 hk2 heq
  have h1 : (4 * c + k) / 4 = c := by omega
  have h2 : (4 * c + k) % 4 = k := by omega
  have h3 : (4 * c2 + k2) / 4 = c2 := by omega
  have h4 : (4 * c2 + k2) % 4 = k2 := by omega
  have := key (4 * c + k) (by omega) (4 * c2 + k2) (by omega)
    (by rw [h1, h2, h3, h4]; exact heq)
  omega

theorem parse_cycle_len22 {buf : List Nat} (h : buf.length = 22) :
    ∃ l, parse_cycle buf = some l ∧ l.length = 4 := by
  rw [parse_cycle, if_pos h]
  obtain ⟨x8, h8⟩ : ∃ x, buf[8]? = some x := ⟨_, List.getElem?_eq_getElem (by omega)⟩
  obtain ⟨x9, h9⟩ : ∃ x, buf[9]? = some x := ⟨_, List.getElem?_eq_getElem (by omega)⟩
  obtain ⟨x12, h12⟩ : ∃ x, buf[12]? = some x := ⟨_, List.getElem?_eq_getElem (by omega)⟩
  obtain ⟨x13, h13⟩ : ∃ x, buf[13]? = some x := ⟨_, List.getElem?_eq_getElem (by omega)⟩
  obtain ⟨x16, h16⟩ : ∃ x, buf[16]? = some x := ⟨_, List.getElem?_eq_getElem (by omega)⟩
  obtain ⟨x17, h17⟩ : ∃ x, buf[17]? = some x := ⟨_, List.getElem?_eq_getElem (by omega)⟩
  obtain ⟨x20, h20⟩ : ∃ x, buf[20]? = some x := ⟨_, List.getElem?_eq_getElem (by omega)⟩
  obtain ⟨x21, h21⟩ : ∃ x, buf[21]? = some x := ⟨_, List.getElem?_eq_getElem (by omega)⟩
  rw [show List.range 4 = [0, 1, 2, 3] from rfl]
  simp only [List.mapM_cons, List.mapM_nil]
  norm_num
  rw [h8, h9, h12, h13, h16, h17, h20, h21]
  exact ⟨_, rfl, rfl⟩

theorem parse_cycle_len10 {buf : List Nat} (h : buf.length = 10) :
    ∃ l, parse_cycle buf = some l ∧ l.length = 1 := by
  rw [parse_cycle, if_neg (by omega), if_pos h]
  simp only [List.get?_eq_getElem?]
  obtain ⟨x8, h8⟩ : ∃ x, buf[8]? = some x := ⟨_, List.getElem?_eq_getElem (by omega)⟩
  obtain ⟨x9, h9⟩ : ∃ x, buf[9]? = some x := ⟨_, List.getElem?_eq_getElem (by omega)⟩
  rw [h8, h9]
  exact ⟨_, rfl, rfl⟩

theorem fst_lt_of_mem_enum {l : List Nat} {kv : Nat × Nat} (h : kv ∈ l.enum) :
    kv.1 < l.length := by
  have h2 := List.mem_enum_iff_getElem?.mp h
  obtain ⟨hlt, -⟩ := List.getElem?_eq_some.mp h2
  exact hlt

theorem write_fold {cycle : Nat} (hc : cycle < 16) :
    ∀ (ps : List (Nat × Nat)), (∀ kv ∈ ps, kv.1 < 4) →
      ∀ r : List Nat, r.length = 64 →
      ∃ r', ps.foldlM
          (fun r kv =>
            if elemIndex cycle kv.1 < r.length then pure (r.set (elemIndex cycle kv.1) kv.2)
            else none) r = some r' ∧ r'.length = 64 := by
  intro ps
  induction ps with
  | nil => intro _ r hr; exact ⟨r, rfl, hr⟩
  | cons kv ps ih =>
    intro hmem r hr
    have hidx : elemIndex cycle kv.1 < 64 := elemIndex_lt cycle hc kv.1 (hmem kv (by simp))
    rw [List.foldlM_cons, if_pos (by omega)]
    obtain ⟨r', hfold, hr'⟩ := ih (fun kv2 h2 => hmem kv2 (List.mem_cons_of_mem _ h2))
      (r.set (elemIndex cycle kv.1) kv.2) (by simp [hr])
    rw [show (pure (r.set (elemIndex cycle kv.1) kv.2) : Option (List Nat)) >>=
        (fun r => ps.foldlM (fun r kv =>
          if elemIndex cycle kv.1 < r.length then pure (r.set (elemIndex cycle kv.1) kv.2)
          else none) r) = ps.foldlM (fun r kv =>
          if elemIndex cycle kv.1 < r.length then pure (r.set (elemIndex cycle kv.1) kv.2)
          else none) (r.set (elemIndex cycle kv.1) kv.2) from rfl, hfold]
    exact ⟨r', rfl, hr'⟩

theorem read_scan_len {packets : Nat → List Nat} (hp : ∀ c < 16, (packets c).length = 22) :
    ∃ l, read_scan packets = some l ∧ l.length = 64 := by
  rw [read_scan]
  suffices h : ∀ (cs : List Nat), (∀ c ∈ cs, c < 16) → ∀ r : List Nat, r.length = 64 →
      ∃ out, cs.foldlM
        (fun readings cycle => do
          let elems ← parse_cycle (packets cycle)
          elems.enum.foldlM
            (fun r kv =>
              if elemIndex cycle kv.1 < r.length then pure (r.set (elemIndex cycle kv.1) kv.2)
              else none)
            readings) r = some out ∧ out.length = 64 by
    exact h (List.range 16) (fun c hc => List.mem_range.mp hc) _ (by simp)
  intro cs
  induction cs with
  | nil => intro _ r hr; exact ⟨r, rfl, hr⟩
  | cons c cs ih =>
    intro hmem r hr
    have hc : c < 16 := hmem c (by simp)
    obtain ⟨l, hl, hlen⟩ := parse_cycle_len22 (hp c hc)
    obtain ⟨r1, hfold, hr1⟩ := write_fold hc l.enum
      (fun kv hkv => by have := fst_lt_of_mem_enum hkv; omega) r hr
    obtain ⟨out, hrest, hout⟩ := ih (fun c2 h2 => hmem c2 (List.mem_cons_of_mem _ h2)) r1 hr1
    refine ⟨out, ?_, hout⟩
    rw [List.foldlM_cons]
    rw [show (do
        let elems ← parse_cycle (packets c)
        elems.enum.foldlM
          (fun r kv =>
            if elemIndex c kv.1 < r.length then pure (r.set (elemIndex c kv.1) kv.2)
            else none) r) = (parse_cycle (packets c)).bind (fun elems => elems.enum.foldlM
          (fun r kv =>
            if elemIndex c kv.1 < r.length then pure (r.set (elemIndex c kv.1) kv.2)
            else none) r) from rfl, hl]
    rw [show (some l).bind (fun elems => elems.enum.foldlM
          (fun r kv =>
            if elemIndex c kv.1 < r.length then pure (r.set (elemIndex c kv.1) kv.2)
            else none) r) = l.enum.foldlM
          (fun r kv =>
            if elemIndex c kv.1 < r.length then pure (r.set (elemIndex c kv.1) kv.2)
            else none) r from rfl, hfold]
    rw [show (some r1 >>= fun r =>
        cs.foldlM (fun readings cycle => do
          let elems ← parse_cycle (packets cycle)
          elems.enum.foldlM
            (fun r kv =>
              if elemIndex cycle kv.1 < r.length then pure (r.set (elemIndex cycle kv.1) kv.2)
              else none) readings) r) = cs.foldlM (fun readings cycle => do
          let elems ← parse_cycle (packets cycle)
          elems.enum.foldlM
            (fun r kv =>
              if elemIndex cycle kv.1 < r.length then pure (r.set (elemIndex cycle kv.1) kv.2)
              else none) readings) r1 from rfl, hrest]

end Msp430

namespace Fr2633

theorem i2c_parse_len22 {buf : List Nat} (h : buf.length = 22) :
    ∃ l, parse_cycle buf = some l ∧ l.length = 4 := by
  rw [parse_cycle, if_pos h]
  obtain ⟨x8, h8⟩ : ∃ x, buf[8]? = some x := ⟨_, List.getElem?_eq_getElem (by omega)⟩
  obtain ⟨x9, h9⟩ : ∃ x, buf[9]? = some x := ⟨_, List.getElem?_eq_getElem (by omega)⟩
  obtain ⟨x12, h12⟩ : ∃ x, buf[12]? = some x := ⟨_, List.getElem?_eq_getElem (by omega)⟩
  obtain ⟨x13, h13⟩ : ∃ x, buf[13]? = some x := ⟨_, List.getElem?_eq_getElem (by omega)⟩
  obtain ⟨x16, h16⟩ : ∃ x, buf[16]? = some x := ⟨_, List.getElem?_eq_getElem (by omega)⟩
  obtain ⟨x17, h17⟩ : ∃ x, buf[17]? = some x := ⟨_, List.getElem?_eq_getElem (by omega)⟩
  obtain ⟨x20, h20⟩ : ∃ x, buf[20]? = some x := ⟨_, List.getElem?_eq_getElem (by omega)⟩
  obtain ⟨x21, h21⟩ : ∃ x, buf[21]? = some x := ⟨_, List.getElem?_eq_getElem (by omega)⟩
  rw [show List.range 4 = [0, 1, 2, 3] from rfl]
  simp only [List.mapM_cons, List.mapM_nil]
  norm_num
  rw [h8, h9, h12, h13, h16, h17, h20, h21]
  exact ⟨_, rfl, rfl⟩

theorem i2c_parse_len10 {buf : List Nat} (h : buf.length = 10) :
    ∃ l, parse_cycle buf = some l ∧ l.length = 1 := by
  rw [parse_cycle, if_neg (by omega), if_pos h]
  simp only [List.get?_eq_getElem?]
  obtain ⟨x8, h8⟩ : ∃ x, buf[8]? = some x := ⟨_, List.getElem?_eq_getElem (by omega)⟩
  obtain ⟨x9, h9⟩ : ∃ x, buf[9]? = some x := ⟨_, List.getElem?_eq_getElem (by omega)⟩
  rw [h8, h9]
  exact ⟨_, rfl, rfl⟩

end Fr2633


/-- C1: The CRC engine implements CRC-16/CCITT-FALSE: on the bytes of
the ASCII string "123456789", crc16_ccitt (init 0xFFFF, poly 0x1021,
MSB-first, no reflection, no final XOR) returns 0x29B1. -/
theorem crc16_ccitt_check_value : CA64.crc16_ccitt CA64.testVec = 0x29B1 := by
  decide

/-- C2 counterexample: feeding one correctly encoded frame (sequence 0,
64 zero values) to the decoder with an empty accumulator, when the
wall-clock sample equals the last_stats register, consumes the frame
but emits no event at all — so the encode/decode round trip does not
always yield a SensorFrame. -/
theorem roundTrip_rate_limited_cex :
    CA64.processChunk [] (CA64.encodeFrame 0 (List.replicate 64 0)) 0 (fun _ => 0) 0 =
      ([], 0, 1, []) :=
  CA64.processChunk_encode_skip 0 0 (fun _ => 0) 0 (by simp)
    (fun x hx => by rw [List.eq_of_mem_replicate hx]; norm_num) (by norm_num)

/-- C2 (amended): for every sequence number s in [0,255] and every list
v of 64 unsigned 16-bit values, encoding a frame and feeding it to the
decoder with an empty accumulator yields exactly one SensorFrame with
validity true, values v and sequence s (followed by the diagnostic log
event), provided the wall clock has advanced more than 0.1 seconds past
the last_stats register; otherwise the frame is consumed silently. -/
theorem roundTrip_encode_decode (s : Nat) (v : List Nat) (ls : Rat) (t : Nat → Rat)
    (k : Nat) (_hs : s ≤ 255) (hv : v.length = 64) (hvb : ∀ x ∈ v, x < 65536)
    (ht : t k - ls > 1 / 10) :
    CA64.processChunk [] (CA64.encodeFrame s v) ls t k =
      ([], t k, k + 1, [CA64.Event.frame s true v, CA64.Event.statsLine s v]) :=
  CA64.processChunk_encode_emit s ls t k hv hvb ht

/-- C2 witness: the round trip at sequence 3 and 64 values of 5, with
the clock one second past the register. -/
theorem roundTrip_encode_decode_witness :
    CA64.processChunk [] (CA64.encodeFrame 3 (List.replicate 64 5)) 0 (fun _ => 1) 0 =
      ([], 1, 1, [CA64.Event.frame 3 true (List.replicate 64 5),
        CA64.Event.statsLine 3 (List.replicate 64 5)]) :=
  roundTrip_encode_decode 3 (List.replicate 64 5) 0 (fun _ => 1) 0 (by norm_num)
    (by simp) (fun x hx => by rw [List.eq_of_mem_replicate hx]; norm_num) (by norm_num)

/-- C3 counterexample: a syntactically well-formed frame (marker, length
128, full 137 bytes) fed while the rate-limit window is closed is
consumed from the accumulator but no SensorFrame event is emitted — a
well-formed frame is silently dropped. -/
theorem wellFormed_frame_dropped_cex :
    CA64.processChunk [] (CA64.encodeFrame 5 (List.replicate 64 7)) 0 (fun _ => 0) 0 =
      ([], 0, 1, []) :=
  CA64.processChunk_encode_skip 5 0 (fun _ => 0) 0 (by simp)
    (fun x hx => by rw [List.eq_of_mem_replicate hx]; norm_num) (by norm_num)

/-- C3 (amended): for every well-formed frame at the first marker
occurrence (full 137 bytes available, declared length 128), the frame
loop consumes the frame unconditionally and computes validity =
(computed CRC == received CRC); the SensorFrame (and its diagnostic log
line) is emitted exactly when more than 0.1 seconds have passed since
the last emission, and is otherwise dropped without any event. -/
theorem frame_consume_emit_dichotomy (buf : List Nat) (ls : Rat) (t : Nat → Rat)
    (k : Nat) (i : Nat) (hfp : CA64.findPat CA64.SOF buf = some i)
    (h1 : ¬ buf.length - i < CA64.FIX_FRAME)
    (h2 : CA64.declaredLen buf i = CA64.FIX_PAY) :
    CA64.frameLoop buf ls t k =
      if t k - ls > 1 / 10 then
        ((CA64.frameLoop (buf.drop (i + CA64.FIX_FRAME)) (t k) t (k + 1)).1,
          (CA64.frameLoop (buf.drop (i + CA64.FIX_FRAME)) (t k) t (k + 1)).2.1,
          (CA64.frameLoop (buf.drop (i + CA64.FIX_FRAME)) (t k) t (k + 1)).2.2.1,
          CA64.Event.frame (CA64.frameSeq buf i) (CA64.frameOk buf i)
              (CA64.unpackLE16 (CA64.framePayload buf i)) ::
            CA64.Event.statsLine (CA64.frameSeq buf i)
              (CA64.unpackLE16 (CA64.framePayload buf i)) ::
            (CA64.frameLoop (buf.drop (i + CA64.FIX_FRAME)) (t k) t (k + 1)).2.2.2)
      else CA64.frameLoop (buf.drop (i + CA64.FIX_FRAME)) ls t (k + 1) := by
  have hstep := CA64.frameStep_parsed_eq hfp h1 h2
  by_cases hg : t k - ls > 1 / 10
  · rw [if_pos hg]
    exact CA64.frameLoop_parsed_emit hstep hg
  · rw [if_neg hg]
    exact CA64.frameLoop_parsed_skip hstep hg

/-- C3 witness: the dichotomy applied to one encoded frame with the
window open reports the frame and then exits on the empty buffer. -/
theorem frame_consume_emit_dichotomy_witness :
    CA64.frameLoop (CA64.encodeFrame 0 (List.replicate 64 0)) 0 (fun _ => 1) 0 =
      ([], 1, 1, [CA64.Event.frame 0 true (List.replicate 64 0),
        CA64.Event.statsLine 0 (List.replicate 64 0)]) := by
  have hv : (List.replicate 64 (0 : Nat)).length = 64 := by simp
  have hvb : ∀ x ∈ List.replicate 64 (0 : Nat), x < 65536 := fun x hx => by
    rw [List.eq_of_mem_replicate hx]; norm_num
  have h := frame_consume_emit_dichotomy (CA64.encodeFrame 0 (List.replicate 64 0)) 0
    (fun _ => 1) 0 0 (CA64.encode_findPat 0 _)
    (by rw [CA64.encodeFrame_length 0 hv]; decide) (CA64.encode_declaredLen 0 _)
  rw [if_pos (by norm_num)] at h
  obtain ⟨ha, hb, hc, hd⟩ := CA64.encode_components 0 hv hvb
  rw [ha, hb, hc, hd, CA64.frameLoop_nil] at h
  exact h

/-- Feeding two markerless chunks of 85-bytes, the first past the
high-water mark and the second keeping the total at or below it: the
guard truncates once, then the accumulator just grows. -/
theorem feed_two_replicates (n1 n2 : Nat) (ls : Rat) (t : Nat → Rat) (k : Nat)
    (h1 : 4096 < n1) (h2 : ¬ 4096 < 1024 + n2) (hn2 : n2 ≠ 0) :
    CA64.feedChunks [] [List.replicate n1 85, List.replicate n2 85] ls t k =
      (List.replicate (1024 + n2) 85, ls, k, []) := by
  have hA := CA64.processChunk_replicate 0 n1 ls t k
  rw [if_pos (by omega)] at hA
  simp only [List.replicate_zero] at hA
  have hB := CA64.processChunk_replicate 1024 n2 ls t k
  rw [if_neg h2] at hB
  rw [CA64.feedChunks, if_neg (by simp only [ne_eq, List.replicate_eq_nil_iff]; omega)]
  simp only [hA]
  rw [CA64.feedChunks, if_neg (by simp only [ne_eq, List.replicate_eq_nil_iff]; omega)]
  simp only [hB]
  rw [CA64.feedChunks]
  rfl

/-- C4 counterexample: 10,000 markerless bytes split into chunks of
6976 and 3024 bytes leave the accumulator at 4048 bytes — above the
claimed 1024-byte bound (the guard only truncates past 4096 bytes). -/
theorem buffer_guard_bound_cex :
    (CA64.feedChunks [] [List.replicate 6976 85, List.replicate 3024 85] 0
        (fun _ => 0) 0).1.length = 4048 ∧
    List.replicate 6976 (85 : Nat) ++ List.replicate 3024 85 = List.replicate 10000 85 ∧
    ¬ CA64.SOF <:+: List.replicate 10000 (85 : Nat) ∧ ¬ (4048 ≤ 1024) := by
  refine ⟨?_, by rw [List.append_replicate_replicate], ?_, by norm_num⟩
  · rw [feed_two_replicates 6976 3024 0 (fun _ => 0) 0 (by norm_num) (by norm_num)
      (by norm_num)]
    simp only [List.length_replicate]
  · intro h
    have h67 : (67 : Nat) ∈ List.replicate 10000 (85 : Nat) :=
      h.sublist.subset (by simp [CA64.SOF])
    have := List.eq_of_mem_replicate h67
    norm_num at this

/-- C4 (amended): after feeding any chunks whose concatenated content
contains no marker occurrence, the accumulator holds at most 4096
bytes once processing completes (the 1024-byte low-water mark is only
reached when a single pass sees the accumulator above 4096 bytes). -/
theorem buffer_guard_bound (chunks : List (List Nat)) (ls : Rat) (t : Nat → Rat)
    (k : Nat) (hno : ¬ CA64.SOF <:+: chunks.flatten) :
    (CA64.feedChunks [] chunks ls t k).1.length ≤ 4096 :=
  CA64.feed_bound chunks [] ls t k chunks.flatten hno
    (by simp) (by simp)

/-- C4 witness: two single-byte markerless chunks stay within the
4096-byte bound. -/
theorem buffer_guard_bound_witness :
    (CA64.feedChunks [] [[85], [85]] 0 (fun _ => 0) 0).1.length ≤ 4096 :=
  buffer_guard_bound [[85], [85]] 0 (fun _ => 0) 0 (by decide)

/-- C5 counterexample: processing the single chunk "#OK CONNECT\n" ++
frame ++ "#OK DISCONNECT\n" (rate-limit window open) emits the connect
LogLine, the SensorFrame, and the frame's diagnostic log line — but no
LogLine "#OK DISCONNECT": that line stays in the accumulator, so the
claimed three-event sequence is not produced. -/
theorem interleaving_cex :
    CA64.processChunk []
        (CA64.connectLine ++ (CA64.encodeFrame 0 (List.replicate 64 0) ++
          CA64.disconnectLine)) 0 (fun _ => 1) 0 =
      (CA64.disconnectLine, 1, 1,
        [CA64.Event.logLine CA64.connectStripped,
          CA64.Event.frame 0 true (List.replicate 64 0),
          CA64.Event.statsLine 0 (List.replicate 64 0)]) ∧
    CA64.Event.logLine [35, 79, 75, 32, 68, 73, 83, 67, 79, 78, 78, 69, 67, 84] ∉
      [CA64.Event.logLine CA64.connectStripped,
        CA64.Event.frame 0 true (List.replicate 64 0),
        CA64.Event.statsLine 0 (List.replicate 64 0)] :=
  ⟨CA64.interleave_run 0 0 (fun _ => 1) 0 (by simp)
      (fun x hx => by rw [List.eq_of_mem_replicate hx]; norm_num) (by norm_num),
    by decide⟩

/-- C5 (amended): processing the single chunk "#OK CONNECT\n" ++ frame
++ "#OK DISCONNECT\n" with the rate-limit window open emits, in order,
the LogLine "#OK CONNECT", one valid SensorFrame, and the frame's
diagnostic log line; the line "#OK DISCONNECT" remains unconsumed in
the accumulator (its LogLine can only be emitted when a later nonempty
chunk is processed). -/
theorem interleaving_events (s : Nat) (v : List Nat) (ls : Rat) (t : Nat → Rat)
    (k : Nat) (_hs : s ≤ 255) (hv : v.length = 64) (hvb : ∀ x ∈ v, x < 65536)
    (ht : t k - ls > 1 / 10) :
    CA64.processChunk []
        (CA64.connectLine ++ (CA64.encodeFrame s v ++ CA64.disconnectLine)) ls t k =
      (CA64.disconnectLine, t k, k + 1,
        [CA64.Event.logLine CA64.connectStripped, CA64.Event.frame s true v,
          CA64.Event.statsLine s v]) :=
  CA64.interleave_run s ls t k hv hvb ht

/-- C5 witness: the interleaved stream at sequence 1, values 3, clock
one second past the register. -/
theorem interleaving_events_witness :
    CA64.processChunk []
        (CA64.connectLine ++ (CA64.encodeFrame 1 (List.replicate 64 3) ++
          CA64.disconnectLine)) 1 (fun _ => 2) 0 =
      (CA64.disconnectLine, 2, 1,
        [CA64.Event.logLine CA64.connectStripped,
          CA64.Event.frame 1 true (List.replicate 64 3),
          CA64.Event.statsLine 1 (List.replicate 64 3)]) :=
  interleaving_events 1 (List.replicate 64 3) 1 (fun _ => 2) 0 (by norm_num) (by simp)
    (fun x hx => by rw [List.eq_of_mem_replicate hx]; norm_num) (by norm_num)

namespace CA64

/-- A 138-byte buffer: one junk byte, then the marker, then 133 zero
bytes, so the declared length field reads 0 instead of 128. -/
def resyncCexBuf : List Nat := 99 :: 67 :: 65 :: 54 :: 52 :: List.replicate 133 0

end CA64

/-- C6 counterexample: with one junk byte before a false marker, the
length-mismatch recovery deletes the junk byte and the marker's first
byte (del buf[:i+1] with i = 1) — it does not leave the bytes
preceding the marker in place as the claim states. -/
theorem resync_prefix_discard_cex :
    CA64.frameStep CA64.resyncCexBuf =
      CA64.FrameStep.resync (CA64.resyncCexBuf.drop 2) ∧
    CA64.resyncCexBuf.drop 2 ≠ CA64.resyncCexBuf.take 1 ++ CA64.resyncCexBuf.drop 2 := by
  constructor
  · decide
  · intro h
    have hlen := congrArg List.length h
    simp [CA64.resyncCexBuf] at hlen

/-- C6 (amended): whenever a full candidate frame is available at the
first marker occurrence but the declared length is not 128, the
decoder discards the prefix up to and including the marker's first
byte (del buf[:i+1], i.e. any bytes preceding the marker are discarded
with it), retries the search from the resulting buffer, and emits no
event for this step. -/
theorem resync_discards_prefix (buf : List Nat) (ls : Rat) (t : Nat → Rat) (k : Nat)
    (i : Nat) (hfp : CA64.findPat CA64.SOF buf = some i)
    (h1 : ¬ buf.length - i < CA64.FIX_FRAME)
    (h2 : CA64.declaredLen buf i ≠ CA64.FIX_PAY) :
    CA64.frameStep buf = CA64.FrameStep.resync (buf.drop (i + 1)) ∧
    CA64.frameLoop buf ls t k = CA64.frameLoop (buf.drop (i + 1)) ls t k :=
  ⟨CA64.frameStep_resync_eq hfp h1 h2,
    CA64.frameLoop_resync (CA64.frameStep_resync_eq hfp h1 h2)⟩

/-- C6 witness: the resynchronization step on the 138-byte buffer with
a junk byte before the false marker. -/
theorem resync_discards_prefix_witness :
    CA64.frameStep CA64.resyncCexBuf =
      CA64.FrameStep.resync (CA64.resyncCexBuf.drop 2) ∧
    CA64.frameLoop CA64.resyncCexBuf 0 (fun _ => 0) 0 =
      CA64.frameLoop (CA64.resyncCexBuf.drop 2) 0 (fun _ => 0) 0 :=
  resync_discards_prefix CA64.resyncCexBuf 0 (fun _ => 0) 0 1 (by decide) (by decide)
    (by decide)

/-- C7 counterexample: the complete line "hello\n" contains no marker
and does not begin with '#' or '>'; the decoder neither removes it
from the accumulator nor forwards it as a LogLine — it stays in the
buffer and no event is emitted. -/
theorem plain_line_not_forwarded_cex :
    CA64.processChunk [] [104, 101, 108, 108, 111, 10] 0 (fun _ => 0) 0 =
      ([104, 101, 108, 108, 111, 10], 0, 0, []) := by
  decide

/-- C7 (amended): for a complete newline-terminated line at the head of
the accumulator that does not contain the marker: if its stripped form
begins with '#' (35) or '>' (62) it is removed and forwarded as a
LogLine and line scanning continues; otherwise the line is left in the
accumulator, nothing is forwarded, and line scanning stops. -/
theorem line_forwarding_characterization (buf : List Nat) (j : Nat)
    (hj : CA64.findPat [10] buf = some j)
    (hsof : ¬ (CA64.findPat CA64.SOF (buf.take j)).isSome = true) :
    ((CA64.stripBytes (buf.take j)).head? = some 35 ∨
        (CA64.stripBytes (buf.take j)).head? = some 62 →
      CA64.processLines buf = ((CA64.processLines (buf.drop (j + 1))).1,
        CA64.Event.logLine (CA64.stripBytes (buf.take j)) ::
          (CA64.processLines (buf.drop (j + 1))).2)) ∧
    ((CA64.stripBytes (buf.take j)).head? ≠ some 35 ∧
        (CA64.stripBytes (buf.take j)).head? ≠ some 62 →
      CA64.processLines buf = (buf, [])) :=
  ⟨fun hh => CA64.processLines_emit hj hsof hh,
    fun hh => CA64.processLines_plain_stop hj hsof (by tauto)⟩

/-- C7 witness: the line "#\n" is removed and forwarded. -/
theorem line_forwarding_characterization_witness :
    CA64.processLines [35, 10] = ((CA64.processLines ([35, 10].drop 2)).1,
      CA64.Event.logLine (CA64.stripBytes ([35, 10].take 1)) ::
        (CA64.processLines ([35, 10].drop 2)).2) :=
  (line_forwarding_characterization [35, 10] 1 (by decide) (by decide)).1
    (by decide)

/-- C8 counterexample: the same accumulator ([]) and the same incoming
bytes (one encoded frame) produce different event lists under two
wall-clock environments — no events when the clock sample equals the
last_stats register, the frame and its diagnostic when it is one
second later — so the emitted events are not a function of
(accumulator, bytes) alone. -/
theorem events_depend_on_clock_cex :
    (CA64.processChunk [] (CA64.encodeFrame 1 (List.replicate 64 2)) 0
        (fun _ => 0) 0).2.2.2 = [] ∧
    (CA64.processChunk [] (CA64.encodeFrame 1 (List.replicate 64 2)) 0
        (fun _ => 1) 0).2.2.2 =
      [CA64.Event.frame 1 true (List.replicate 64 2),
        CA64.Event.statsLine 1 (List.replicate 64 2)] := by
  constructor
  · rw [CA64.processChunk_encode_skip 1 0 (fun _ => 0) 0 (by simp)
      (fun x hx => by rw [List.eq_of_mem_replicate hx]; norm_num) (by norm_num)]
  · rw [CA64.processChunk_encode_emit 1 0 (fun _ => 1) 0 (by simp)
      (fun x hx => by rw [List.eq_of_mem_replicate hx]; norm_num) (by norm_num)]

/-- C8 (amended): the new accumulator contents are a pure function of
(previous accumulator, incoming bytes): they are identical across any
two runs regardless of the last_stats register, the wall-clock sample
stream, or the sample index.  (The emitted event list, by contrast,
additionally depends on that rate-limiter state.) -/
theorem accumulator_pure (buf data : List Nat) (ls ls' : Rat) (t t' : Nat → Rat)
    (k k' : Nat) :
    (CA64.processChunk buf data ls t k).1 = (CA64.processChunk buf data ls' t' k').1 :=
  CA64.frameLoopF_fst _ _ _ _ _ _ _ _

/-- C9: every iteration of the frame-extraction loop either exits the
loop or strictly decreases the accumulator length: a length-mismatch
resynchronization deletes at least one byte and a parsed frame deletes
at least FIX_FRAME = 137 bytes, so the loop cannot run forever on any
fixed accumulator contents. -/
theorem frame_loop_progress (buf : List Nat) :
    match CA64.frameStep buf with
    | CA64.FrameStep.exit _ => True
    | CA64.FrameStep.resync b => b.length + 1 ≤ buf.length
    | CA64.FrameStep.parsed b _ _ _ => b.length + CA64.FIX_FRAME ≤ buf.length := by
  cases h : CA64.frameStep buf with
  | exit b => trivial
  | resync b =>
    have := CA64.frameStep_resync_length h
    omega
  | parsed b seq ok counts => exact CA64.frameStep_parsed_length h

/-- C10: the element-index mapping E = 8*(cycle >> 1) + 2*k + (cycle & 1)
is a bijection from the 64 pairs (cycle < 16, k < 4) onto [0,63]
(bounded, injective and surjective); consequently read_scan with
22-byte packets for every cycle succeeds and returns a list of length
64 (each write lands inside the 64-slot array); and parse_cycle (in
both the msp430 and the fr2633 variant) performs only in-range index
accesses on inputs of length 22 or 10 (its Option-modelled indexing
never fails). -/
theorem i2c_element_mapping :
    (∀ c < 16, ∀ k < 4, Msp430.elemIndex c k < 64) ∧
    (∀ c < 16, ∀ k < 4, ∀ c2 < 16, ∀ k2 < 4,
      Msp430.elemIndex c k = Msp430.elemIndex c2 k2 → c = c2 ∧ k = k2) ∧
    (∀ e < 64, ∃ c, c < 16 ∧ ∃ k, k < 4 ∧ Msp430.elemIndex c k = e) ∧
    (∀ packets : Nat → List Nat, (∀ c < 16, (packets c).length = 22) →
      ∃ l, Msp430.read_scan packets = some l ∧ l.length = 64) ∧
    (∀ buf : List Nat,
      (buf.length = 22 →
        (Msp430.parse_cycle buf).isSome ∧ (Fr2633.parse_cycle buf).isSome) ∧
      (buf.length = 10 →
        (Msp430.parse_cycle buf).isSome ∧ (Fr2633.parse_cycle buf).isSome)) := by
  refine ⟨Msp430.elemIndex_lt, Msp430.elemIndex_inj, by decide, ?_, ?_⟩
  · intro packets hp
    exact Msp430.read_scan_len hp
  · intro buf
    constructor
    · intro h
      obtain ⟨l1, hl1, -⟩ := Msp430.parse_cycle_len22 h
      obtain ⟨l2, hl2, -⟩ := Fr2633.i2c_parse_len22 h
      rw [hl1, hl2]
      exact ⟨rfl, rfl⟩
    · intro h
      obtain ⟨l1, hl1, -⟩ := Msp430.parse_cycle_len10 h
      obtain ⟨l2, hl2, -⟩ := Fr2633.i2c_parse_len10 h
      rw [hl1, hl2]
      exact ⟨rfl, rfl⟩

/-- C10 witness: one bound of the mapping, a full read_scan over
all-zero 22-byte packets, and a 10-byte parse_cycle. -/
theorem i2c_element_mapping_witness :
    Msp430.elemIndex 5 2 < 64 ∧
    (∃ l, Msp430.read_scan (fun _ => List.replicate 22 0) = some l ∧ l.length = 64) ∧
    (Msp430.parse_cycle (List.replicate 10 0)).isSome :=
  ⟨i2c_element_mapping.1 5 (by norm_num) 2 (by norm_num),
    i2c_element_mapping.2.2.2.1 (fun _ => List.replicate 22 0) (fun c _ => by simp),
    ((i2c_element_mapping.2.2.2.2 (List.replicate 10 0)).2 (by simp)).1⟩
